import Mathlib

/-!
Shallow embedding of the raster-to-vector tracer
(`src/services/offlineTracer.ts`).

The pipeline has two stages:

* a WebGL2 fragment shader (`PACKED_OPTIMIZED_SHADER`) that applies a 5×5
  Gaussian blur and per-channel quantization to every pixel, run over the
  whole image by `processOnGPU`, whose result is read back with
  `gl.readPixels` into `packedData`;
* a CPU vectorizer (`traceImageOffline`) that repacks the bytes into 24-bit
  colors, collects the set of distinct non-black colors in insertion order,
  and for each color emits one SVG `<path>` made of axis-aligned rectangles
  found by a left-to-right run scan of every `rowStep`-th output row.

GLSL float arithmetic is modelled over `ℚ` (exact arithmetic); none of the
concrete values used below lies near a rounding boundary of the `floor`
calls, so the idealization agrees with any faithful float evaluation.  The
`ℚ`-level definitions (`gaussW`, `texChan`, `blurChan`, `quantizeQ`,
`byteOfChan`) are direct transcriptions of the shader source; because every
blur tap is `(m/1000) * (c/255)` with `m, c : ℕ`, the blurred channel value
is the integer `blurM` divided by `255000`, and the whole per-pixel
computation collapses to exact natural-number arithmetic (`shaderByte`).
The agreement is proved below (`blurChan_eq_blurM`, `byteOfChan_quantizeQ`),
so the executable `Nat`-level pipeline is certified against the
transcription rather than assumed.

Machine integers on the CPU side are modelled as `Nat` (all quantities stay
far below 2^32, and `(r << 16) | (g << 8) | b` on bytes equals
`r * 65536 + g * 256 + b`).

Platform model (WebGL2 semantics used by `processOnGPU`), documented here
once and used by `quantizedColors` below:

* `texImage2D` with an `HTMLImageElement` and `UNPACK_FLIP_Y_WEBGL = false`
  (line 126 sets it to `false` explicitly) transfers the image rows in
  natural order, and the first row transferred is texel row 0, the row
  sampled at texture coordinate `t ≈ 0`.  Hence `t ≈ 0` samples the
  image's TOP row.
* The quad (lines 112-123) maps NDC corner `(-1,-1)` (bottom-left of the
  framebuffer) to texcoord `(0,0)`, so framebuffer row 0 (the bottom)
  samples `t ≈ 0`, i.e. the image's top row: the framebuffer holds the
  processed image upside-down.
* `readPixels(0, 0, w, h, ...)` returns rows from the bottom of the
  framebuffer upward, so `packedData` row 0 is framebuffer row 0, which is
  the processed image TOP row.  The two vertical inversions cancel:
  `packedData` row `y`, column `x` holds the shader output for image pixel
  `(x, y)` with the usual top-left origin.
* `CLAMP_TO_EDGE` wrapping together with sampling at exact texel centers
  plus whole-texel offsets means every `texture(...)` call fetches the
  texel at the coordinate-wise clamped pixel position, which is what
  `clampN` computes.
* Writing `fragColor` to the RGBA8 framebuffer clamps each channel to
  `[0,1]` and then rounds `v * 255` to an integer (`byteOfChan` below; the
  values produced by `quantize` are exact multiples of `1/255` inside the
  representable range, so the tie-breaking rule of the conversion is never
  exercised by the facts proved here).
-/

/-- RGB sample, 8 bits per channel (alpha is dropped by the repacking loop
at lines 180-182, so it is not modelled). -/
structure RGB where
  r : Nat
  g : Nat
  b : Nat
deriving DecidableEq, Repr

/-- Decoded raster image: `pix x y` is the sample at column `x`, row `y`,
origin at the top-left, as decoded from the source file. -/
structure Img where
  width : Nat
  height : Nat
  pix : Nat → Nat → RGB

/-- Clamp an integer coordinate into `[0, n-1]` (the effect of
`CLAMP_TO_EDGE` when sampling texel `i` of a dimension of size `n`). -/
def clampN (n : Nat) (i : Int) : Nat :=
  (max 0 (min i ((n : Int) - 1))).toNat

/-- Gaussian Kernel 5x5 of the shader, lines 37-43, row-major with
`idx = (j+2)*5 + (i+2)`; the float literals are exact in `ℚ`. -/
def gaussW : List ℚ :=
  [0.003, 0.013, 0.022, 0.013, 0.003,
   0.013, 0.059, 0.097, 0.059, 0.013,
   0.022, 0.097, 0.159, 0.097, 0.022,
   0.013, 0.059, 0.097, 0.059, 0.013,
   0.003, 0.013, 0.022, 0.013, 0.003]

/-- Kernel weights in thousandths: entry `k` of `gaussM` is `1000` times
entry `k` of `gaussW` (the shader's three-decimal float literals are exact
multiples of `1/1000`); proved as `gaussW_eq_map_gaussM` below. -/
def gaussM : List Nat :=
  [3, 13, 22, 13, 3,
   13, 59, 97, 59, 13,
   22, 97, 159, 97, 22,
   13, 59, 97, 59, 13,
   3, 13, 22, 13, 3]

/-- Normalized texture fetch of one channel at the (clamped) pixel position
`(x, y)` in image coordinates (top-left origin): `texture(u_image, ...)`
returns the stored byte divided by 255. -/
def texChan (img : Img) (ch : RGB → Nat) (x y : Int) : ℚ :=
  (ch (img.pix (clampN img.width x) (clampN img.height y)) : ℚ) / 255

/-- Shader blur loop (lines 45-52): the 25-tap Gaussian-weighted average of
one channel around pixel `(x, y)`.  Tap `k` has column offset `k % 5 - 2`
and row offset `k / 5 - 2`, matching `idx = (j+2)*5 + (i+2)`. -/
def blurChan (img : Img) (ch : RGB → Nat) (x y : Nat) : ℚ :=
  ((List.range 25).map (fun k =>
    gaussW.getD k 0 *
      texChan img ch ((x : Int) + ((k % 5 : Nat) : Int) - 2)
        ((y : Int) + ((k / 5 : Nat) : Int) - 2))).sum

/-- Blurred channel value scaled by `255000`: tap `k` contributes
`(gaussM[k]/1000) * (byte/255)`, so the sum of `gaussM[k] * byte` is the
blur times `255000` exactly (`blurChan_eq_blurM`). -/
def blurM (img : Img) (ch : RGB → Nat) (x y : Nat) : Nat :=
  ((List.range 25).map (fun k =>
    gaussM.getD k 0 *
      ch (img.pix (clampN img.width ((x : Int) + ((k % 5 : Nat) : Int) - 2))
        (clampN img.height ((y : Int) + ((k / 5 : Nat) : Int) - 2))))).sum

/-- Shader `quantize` (lines 29-31):
`floor(color * 255.0 / u_qFactor + 0.5) * u_qFactor / 255.0`. -/
def quantizeQ (q : Nat) (c : ℚ) : ℚ :=
  (⌊c * 255 / (q : ℚ) + 0.5⌋ : ℚ) * (q : ℚ) / 255

/-- Conversion of one float channel of `fragColor` to the stored
`UNSIGNED_BYTE`: clamp to `[0,1]`, scale by 255, round to nearest. -/
def byteOfChan (v : ℚ) : Nat :=
  (⌊min (max v 0) 1 * 255 + 0.5⌋).toNat

/-- Quantization factor: `Math.max(4, Math.floor(simplification / 3))`
(line 150). -/
def qFactorOf (s : Nat) : Nat := max 4 (s / 3)

/-- Vertical sampling stride: `Math.max(1, Math.floor(simplification / 20))`
(line 188). -/
def rowStepOf (s : Nat) : Nat := max 1 (s / 20)

/-- One channel of the shader output for image pixel `(x, y)` in exact
integer arithmetic: with `S = blurM` (the blur scaled by `255000`),
`quantize` yields `floor(S/(1000 q) + 1/2) * q / 255`, the byte conversion
multiplies by `255` after clamping to `[0,1]`, and
`floor(S/(1000 q) + 1/2) = (2 S + 1000 q) / (2000 q)` in `Nat` division.
Certified against the `ℚ` transcription by `shaderByte_eq_transcription`. -/
def shaderByte (img : Img) (q : Nat) (ch : RGB → Nat) (x y : Nat) : Nat :=
  min ((2 * blurM img ch x y + 1000 * q) / (2000 * q) * q) 255

/-- Repacked 24-bit color buffer (lines 174-185):
`(packedData[srcIdx] << 16) | (packedData[srcIdx+1] << 8) | packedData[srcIdx+2]`.
Per the platform model above, `packedData` row `y` holds the shader output
for image row `y` (top-left origin), so `quantizedColors img s x y` is the
processed color of image pixel `(x, y)`. -/
def quantizedColors (img : Img) (s : Nat) : Nat → Nat → Nat := fun x y =>
  shaderByte img (qFactorOf s) RGB.r x y * 65536 +
    shaderByte img (qFactorOf s) RGB.g x y * 256 +
    shaderByte img (qFactorOf s) RGB.b x y

/-- Insertion-ordered set of distinct nonzero colors (lines 175-185): the
scan runs over rows `y = 0 .. h-1` and columns `x = 0 .. w-1` of the
buffer, skipping `0` (`if (packedColor !== 0) uniqueColors.add(...)`); a JS
`Set` iterates in insertion order, modelled by appending on first sight. -/
def uniqueColors (buf : Nat → Nat → Nat) (w h : Nat) : List Nat :=
  ((List.range h).flatMap (fun y => (List.range w).map (fun x => buf x y))).foldl
    (fun acc c => if c = 0 then acc else if c ∈ acc then acc else acc ++ [c]) []

/-- One step of the inner column loop (lines 203-210) for one row:
state `none` is `startX === -1`, state `some s` is an open run started at
`s`; a closing step appends the half-open run `[s, x)`. -/
def runStep (row : Nat → Nat) (c : Nat) :
    Option Nat × List (Nat × Nat) → Nat → Option Nat × List (Nat × Nat)
  | (none, rs), x => if row x = c then (some x, rs) else (none, rs)
  | (some s, rs), x => if row x = c then (some s, rs) else (none, rs ++ [(s, x)])

/-- State after the column loop has processed `x = 0 .. w-1`. -/
def runFold (row : Nat → Nat) (c w : Nat) : Option Nat × List (Nat × Nat) :=
  (List.range w).foldl (runStep row c) (none, [])

/-- Complete list of half-open runs `[s, e)` of color `c` in one row: the
column loop followed by the trailing close at `width` (lines 211-213). -/
def rowRuns (row : Nat → Nat) (c w : Nat) : List (Nat × Nat) :=
  match runFold row c w with
  | (none, rs) => rs
  | (some s, rs) => rs ++ [(s, w)]

/-- Output rows visited by `for (svgY = 0; svgY < height; svgY += rowStep)`:
the multiples of `step` below `h`, in increasing order (for `step ≥ 1`,
which `rowStepOf` guarantees). -/
def sampledRows (h step : Nat) : List Nat :=
  (List.range h).filter (fun y => y % step = 0)

/-- Axis-aligned rectangle emitted as one `M{x},{y}h{w}v{h}h{-w}z` path
fragment. -/
structure Rect where
  x : Nat
  y : Nat
  w : Nat
  h : Nat
deriving DecidableEq, Repr

/-- All rectangles emitted for color `c` (lines 198-214): for each sampled
output row `svgY` the buffer row `height - 1 - svgY` is scanned, and each
run `[s, e)` becomes the rectangle `(s, svgY)` of size `(e - s, step)`. -/
def colorRects (buf : Nat → Nat → Nat) (w h step c : Nat) : List Rect :=
  (sampledRows h step).flatMap fun svgY =>
    (rowRuns (fun x => buf x (h - 1 - svgY)) c w).map fun se =>
      ⟨se.1, svgY, se.2 - se.1, step⟩

/-- Per-color shape list of the output document: one entry per unique
color, dropping colors whose path data is empty (`if (pathData)`, line 216;
the path string is empty exactly when the rectangle list is). -/
def shapesOfBuf (buf : Nat → Nat → Nat) (w h step : Nat) :
    List (Nat × List Rect) :=
  ((uniqueColors buf w h).map fun c => (c, colorRects buf w h step c)).filter
    fun p => !p.2.isEmpty

/-- Path-data fragment of one rectangle (line 207/212):
`M${startX},${svgY}h${x - startX}v${rowStep}h${startX - x}z ` — the final
horizontal move is the negated width. -/
def rectPath (r : Rect) : String :=
  "M" ++ toString r.x ++ "," ++ toString r.y ++ "h" ++ toString r.w ++
    "v" ++ toString r.h ++ "h" ++ toString (-(r.w : Int)) ++ "z "

/-- One `<path>` element (line 217); `(color >> 16) & 0xFF` on a 24-bit
value is `c / 65536 % 256`, and likewise for the other channels. -/
def pathElem (c : Nat) (rects : List Rect) : String :=
  "<path d=\"" ++ String.join (rects.map rectPath) ++ "\" fill=\"rgb(" ++
    toString (c / 65536 % 256) ++ "," ++ toString (c / 256 % 256) ++ "," ++
    toString (c % 256) ++ ")\" />"

/-- Document assembly (line 221). -/
def svgDoc (w h : Nat) (paths : String) : String :=
  "<svg viewBox=\"0 0 " ++ toString w ++ " " ++ toString h ++
    "\" xmlns=\"http://www.w3.org/2000/svg\" shape-rendering=\"crispEdges\">" ++
    paths ++ "</svg>"

/-- CPU vectorizer: repacked buffer to SVG string (lines 187-221).  The
source interleaves path building and concatenation inside one `forEach`;
mapping the serializer over the structured shape list produces the same
string in the same order. -/
def vectorize (buf : Nat → Nat → Nat) (w h s : Nat) : String :=
  svgDoc w h
    (String.join ((shapesOfBuf buf w h (rowStepOf s)).map fun p =>
      pathElem p.1 p.2))

/-- Whole pipeline `traceImageOffline` on a decoded image: GPU pass
(`processOnGPU`), repacking, vectorization, document assembly. -/
def traceImageOffline (img : Img) (s : Nat) : String :=
  vectorize (quantizedColors img s) img.width img.height s

/-- Structured shape list of the whole pipeline (the `<path>` elements of
`traceImageOffline img s` in emission order, with their rectangles). -/
def shapesOf (img : Img) (s : Nat) : List (Nat × List Rect) :=
  shapesOfBuf (quantizedColors img s) img.width img.height (rowStepOf s)

/-- Constant-color image. -/
def constImg (w h : Nat) (col : RGB) : Img :=
  ⟨w, h, fun _ _ => col⟩

/-- Test image of the spec's concrete scenario: 4×4, top row blue
`(0,0,255)`, remaining rows red `(255,0,0)`. -/
def testImg : Img :=
  ⟨4, 4, fun _ y => if y = 0 then ⟨0, 0, 255⟩ else ⟨255, 0, 0⟩⟩

/-- Buffer with a single non-background pixel confined to buffer row 1 of a
1×3 image; used to exhibit a color dropped by row sampling. -/
def skipBuf : Nat → Nat → Nat :=
  fun _ y => if y = 1 then 26 else 0

/-- Per-channel quantization map induced on byte values: the shader's
`quantize` applied to a channel byte `c` (texture value `c / 255`),
expressed in byte scale; `floor(c / q + 1/2) = (2*c + q) / (2*q)` in `Nat`
arithmetic.  Certified against the transcription by
`quantizeChan_eq_transcription`. -/
def quantizeChan (q c : Nat) : Nat :=
  ((2 * c + q) / (2 * q)) * q

/-- Pixels `x ∈ [s, e)` of the row all have color `c`. -/
def inRun (row : Nat → Nat) (c s e : Nat) : Prop :=
  ∀ x, s ≤ x → x < e → row x = c

/-- The run cannot be extended one pixel to the left. -/
def leftMax (row : Nat → Nat) (c s : Nat) : Prop :=
  s = 0 ∨ row (s - 1) ≠ c

/-- A run of `c` still open after the scan has processed columns `[0, w)`. -/
def openRun (row : Nat → Nat) (c s w : Nat) : Prop :=
  s < w ∧ inRun row c s w ∧ leftMax row c s

/-- A maximal run `[s, e)` of `c` closed strictly inside the scanned
prefix `[0, w)`. -/
def closedRun (row : Nat → Nat) (c w s e : Nat) : Prop :=
  s < e ∧ e < w ∧ inRun row c s e ∧ leftMax row c s ∧ row e ≠ c

set_option maxRecDepth 10000

/-!
Bridging lemmas: the `Nat`-scaled executable pipeline agrees with the `ℚ`
transcription of the shader source.
-/

/-- Entrywise, the shader's float kernel literals are the thousandths
`gaussM` divided by 1000. -/
theorem gaussW_eq_map_gaussM : gaussW = gaussM.map (fun (m : Nat) => (m : ℚ) / 1000) := by
  norm_num [gaussW, gaussM]

/-- Indexed form of `gaussW_eq_map_gaussM`. -/
theorem gaussW_getD (k : Nat) :
    gaussW.getD k 0 = (gaussM.getD k 0 : ℚ) / 1000 := by
  rw [gaussW_eq_map_gaussM, List.getD_eq_getElem?_getD, List.getD_eq_getElem?_getD,
    List.getElem?_map]
  cases gaussM[k]? with
  | none => simp only [Option.map_none', Option.getD_none, Nat.cast_zero, zero_div]
  | some m => simp only [Option.map_some', Option.getD_some]

/-- Sums of pointwise `Nat`-scaled rationals are the scaled `Nat` sums. -/
theorem sum_map_cast_div (l : List Nat) (fQ : Nat → ℚ) (fN : Nat → Nat) (D : ℚ)
    (h : ∀ k ∈ l, fQ k = (fN k : ℚ) / D) :
    (l.map fQ).sum = ((l.map fN).sum : ℚ) / D := by
  induction l with
  | nil => simp
  | cons a t ih =>
    simp only [List.map_cons, List.sum_cons, Nat.cast_add]
    rw [h a (List.mem_cons_self a t), ih (fun k hk => h k (List.mem_cons_of_mem a hk)),
      div_add_div_same]

/-- The shader blur is exactly the scaled integer blur divided by 255000. -/
theorem blurChan_eq_blurM (img : Img) (ch : RGB → Nat) (x y : Nat) :
    blurChan img ch x y = (blurM img ch x y : ℚ) / 255000 := by
  unfold blurChan blurM
  apply sum_map_cast_div
  intro k _
  rw [gaussW_getD]
  simp only [texChan]
  push_cast
  ring

/-- Floor of a natural plus one half. -/
theorem floor_nat_add_half (n : Nat) : ⌊(n : ℚ) + 0.5⌋ = (n : ℤ) := by
  rw [Int.floor_eq_iff]
  push_cast
  norm_num

/-- Core bridge: applying the shader's `quantize` to a blurred value
`S / 255000` and storing the result as an `UNSIGNED_BYTE` yields exactly
the `Nat`-division formula used by `shaderByte`, including the 255 cap
coming from the `[0,1]` framebuffer clamp. -/
theorem byteOfChan_quantizeQ (q S : Nat) (hq : 1 ≤ q) :
    byteOfChan (quantizeQ q ((S : ℚ) / 255000)) =
      min ((2 * S + 1000 * q) / (2000 * q) * q) 255 := by
  have hq0 : (q : ℚ) ≠ 0 := Nat.cast_ne_zero.mpr (by omega)
  set m : Nat := (2 * S + 1000 * q) / (2000 * q) with hm
  have harg : (S : ℚ) / 255000 * 255 / (q : ℚ) + 0.5 =
      ((2 * S + 1000 * q : ℕ) : ℚ) / ((2000 * q : ℕ) : ℚ) := by
    push_cast
    field_simp
    ring
  have hfloor : ⌊(S : ℚ) / 255000 * 255 / (q : ℚ) + 0.5⌋ = (m : ℤ) := by
    rw [harg, Rat.floor_natCast_div_natCast]
    exact_mod_cast rfl
  have hquant : quantizeQ q ((S : ℚ) / 255000) = ((m * q : ℕ) : ℚ) / 255 := by
    unfold quantizeQ
    rw [hfloor]
    push_cast
    ring
  rw [hquant]
  have hnn : (0 : ℚ) ≤ ((m * q : ℕ) : ℚ) / 255 := by positivity
  unfold byteOfChan
  rw [max_eq_left hnn]
  by_cases hle : m * q ≤ 255
  · have hv1 : ((m * q : ℕ) : ℚ) / 255 ≤ 1 := by
      rw [div_le_one (by norm_num)]
      exact_mod_cast hle
    rw [min_eq_left hv1, div_mul_cancel₀ _ (by norm_num : (255 : ℚ) ≠ 0),
      floor_nat_add_half, Int.toNat_natCast]
    exact (min_eq_left hle).symm
  · have hv1 : (1 : ℚ) ≤ ((m * q : ℕ) : ℚ) / 255 := by
      rw [le_div_iff₀ (by norm_num : (0 : ℚ) < 255), one_mul]
      exact_mod_cast (by omega : (255 : ℕ) ≤ m * q)
    have h255 : ((255 : ℕ) : ℚ) = 255 := by norm_num
    rw [min_eq_right hv1, one_mul, ← h255, floor_nat_add_half, Int.toNat_natCast]
    exact (min_eq_right (by omega)).symm

/-- The executable per-channel pipeline equals the `ℚ` transcription of the
shader (blur, quantize, byte store) for any positive quantization factor. -/
theorem shaderByte_eq_transcription (img : Img) (q : Nat) (ch : RGB → Nat)
    (x y : Nat) (hq : 1 ≤ q) :
    byteOfChan (quantizeQ q (blurChan img ch x y)) = shaderByte img q ch x y := by
  rw [blurChan_eq_blurM, byteOfChan_quantizeQ _ _ hq]
  rfl

/-- The byte-level quantization map `quantizeChan` is the shader's
`quantize` applied to the texture value `c / 255` and stored as a byte. -/
theorem quantizeChan_eq_transcription (q c : Nat) (hq : 1 ≤ q) :
    byteOfChan (quantizeQ q ((c : ℚ) / 255)) = min (quantizeChan q c) 255 := by
  have h : ((c : ℚ) / 255) = ((1000 * c : ℕ) : ℚ) / 255000 := by
    push_cast
    field_simp
    ring
  rw [h, byteOfChan_quantizeQ _ _ hq]
  congr 1
  have h1 : 2 * (1000 * c) + 1000 * q = 1000 * (2 * c + q) := by ring
  have h2 : 2000 * q = 1000 * (2 * q) := by ring
  rw [h1, h2, Nat.mul_div_mul_left _ _ (by norm_num : 0 < 1000)]
  rfl

/-- On a constant-color image every blur tap fetches the same byte, so the
scaled blur is the kernel mass `987` (in thousandths) times the byte. -/
theorem blurM_const (w h : Nat) (col : RGB) (ch : RGB → Nat) (x y : Nat) :
    blurM (constImg w h col) ch x y = 987 * ch col := by
  unfold blurM constImg
  simp only
  rw [List.sum_map_mul_right]
  have h987 : ((List.range 25).map (fun k => gaussM.getD k 0)).sum = 987 := by decide
  rw [h987, Nat.mul_comm]

/-- The shader maps a black pixel of an all-black image to byte 0 on any
channel selector that reads 0 from black. -/
theorem shaderByte_const_black (w h q : Nat) (ch : RGB → Nat) (x y : Nat)
    (hq : 1 ≤ q) (hch : ch ⟨0, 0, 0⟩ = 0) :
    shaderByte (constImg w h ⟨0, 0, 0⟩) q ch x y = 0 := by
  unfold shaderByte
  rw [blurM_const, hch]
  have hz : (2 * (987 * 0) + 1000 * q) / (2000 * q) = 0 :=
    Nat.div_eq_of_lt (by omega)
  rw [hz]
  simp

/-- The repacked buffer of an all-black image is identically 0. -/
theorem quantizedColors_black (w h s x y : Nat) :
    quantizedColors (constImg w h ⟨0, 0, 0⟩) s x y = 0 := by
  unfold quantizedColors
  have hq : 1 ≤ qFactorOf s := by unfold qFactorOf; omega
  rw [shaderByte_const_black w h _ RGB.r x y hq rfl,
    shaderByte_const_black w h _ RGB.g x y hq rfl,
    shaderByte_const_black w h _ RGB.b x y hq rfl]

/-- The insertion fold ignores a list whose entries are all background. -/
theorem foldl_insert_all_zero (l acc : List Nat) (hall : ∀ c ∈ l, c = 0) :
    l.foldl (fun acc c => if c = 0 then acc else if c ∈ acc then acc else acc ++ [c]) acc
      = acc := by
  induction l generalizing acc with
  | nil => rfl
  | cons a t ih =>
    have ha : a = 0 := hall a (List.mem_cons_self a t)
    simp only [List.foldl_cons, ha, if_pos]
    exact ih acc (fun c hc => hall c (List.mem_cons_of_mem a hc))

/-- A pointwise-background buffer has no unique colors. -/
theorem uniqueColors_of_zero (buf : Nat → Nat → Nat) (w h : Nat)
    (hbuf : ∀ x y, buf x y = 0) : uniqueColors buf w h = [] := by
  unfold uniqueColors
  apply foldl_insert_all_zero
  intro c hc
  rcases List.mem_flatMap.mp hc with ⟨y, _, hy⟩
  rcases List.mem_map.mp hy with ⟨x, _, rfl⟩
  exact hbuf x y

/-- Membership in the sampled-row list of the `svgY` loop. -/
theorem mem_sampledRows {h step y : Nat} :
    y ∈ sampledRows h step ↔ y < h ∧ y % step = 0 := by
  unfold sampledRows
  rw [List.mem_filter, List.mem_range]
  simp

/-- Unrolling the column loop one step from the right. -/
theorem runFold_succ (row : Nat → Nat) (c w : Nat) :
    runFold row c (w + 1) = runStep row c (runFold row c w) w := by
  unfold runFold
  rw [List.range_succ, List.foldl_append, List.foldl_cons, List.foldl_nil]

/-- If the last scanned pixel has color `c`, some run is open: take the
maximal extension of the run ending there. -/
theorem exists_openRun (row : Nat → Nat) (c : Nat) :
    ∀ w, 0 < w → row (w - 1) = c → ∃ s, openRun row c s w := by
  intro w
  induction w with
  | zero => omega
  | succ n ih =>
    intro _ hc
    have hcn : row n = c := by simpa using hc
    cases n with
    | zero =>
      refine ⟨0, Nat.zero_lt_one, ?_, Or.inl rfl⟩
      intro x hx1 hx2
      have hx0 : x = 0 := by omega
      rw [hx0]
      exact hcn
    | succ m =>
      by_cases hm : row m = c
      · obtain ⟨s, hs1, hs2, hs3⟩ := ih (by omega) (by simpa using hm)
        refine ⟨s, by omega, ?_, hs3⟩
        intro x hx1 hx2
        rcases Nat.lt_or_ge x (m + 1) with hlt | hge
        · exact hs2 x hx1 hlt
        · have hxe : x = m + 1 := by omega
          rw [hxe]; exact hcn
      · refine ⟨m + 1, by omega, ?_, Or.inr (by simpa using hm)⟩
        intro x hx1 hx2
        have : x = m + 1 := by omega
        rw [this]; exact hcn

theorem runFold_spec (row : Nat → Nat) (c : Nat) :
    ∀ w, (∀ s, (runFold row c w).1 = some s ↔ openRun row c s w) ∧
      (∀ s e, (s, e) ∈ (runFold row c w).2 ↔ closedRun row c w s e) := by
  intro w
  induction w with
  | zero =>
    constructor
    · intro s
      constructor
      · intro h
        simp [runFold] at h
      · rintro ⟨h1, -, -⟩
        omega
    · intro s e
      constructor
      · intro h
        simp [runFold] at h
      · rintro ⟨-, h2, -, -, -⟩
        omega
  | succ w ih =>
    obtain ⟨ihSome, ihMem⟩ := ih
    rw [runFold_succ]
    rcases hfold : runFold row c w with ⟨st, rs⟩
    rw [hfold] at ihSome ihMem
    simp only at ihSome ihMem
    cases st with
    | none =>
      have hnone : ∀ s, ¬ openRun row c s w := by
        intro s hs
        exact Option.noConfusion ((ihSome s).mpr hs)
      have hedge : w = 0 ∨ row (w - 1) ≠ c := by
        by_contra hcon
        push_neg at hcon
        obtain ⟨s, hs⟩ := exists_openRun row c w (by omega) hcon.2
        exact hnone s hs
      by_cases hc : row w = c
      · simp only [runStep, if_pos hc]
        constructor
        · intro s
          simp only [Option.some.injEq]
          constructor
          · rintro rfl
            refine ⟨by omega, ?_, hedge⟩
            intro x hx1 hx2
            have hxw : x = w := by omega
            rw [hxw]
            exact hc
          · rintro ⟨h1, h2, h3⟩
            by_contra hne
            have hsw : s < w := by omega
            have hw1 : row (w - 1) = c := h2 (w - 1) (by omega) (by omega)
            rcases hedge with hh | hh
            · omega
            · exact hh hw1
        · intro s e
          constructor
          · intro hmem
            obtain ⟨g1, g2, g3, g4, g5⟩ := (ihMem s e).mp hmem
            exact ⟨g1, by omega, g3, g4, g5⟩
          · rintro ⟨g1, g2, g3, g4, g5⟩
            have hew : e ≠ w := fun hew => g5 (hew ▸ hc)
            exact (ihMem s e).mpr ⟨g1, by omega, g3, g4, g5⟩
      · simp only [runStep, if_neg hc]
        constructor
        · intro s
          constructor
          · intro h
            exact Option.noConfusion h
          · rintro ⟨h1, h2, h3⟩
            exact absurd (h2 w (by omega) (by omega)) hc
        · intro s e
          constructor
          · intro hmem
            obtain ⟨g1, g2, g3, g4, g5⟩ := (ihMem s e).mp hmem
            exact ⟨g1, by omega, g3, g4, g5⟩
          · rintro ⟨g1, g2, g3, g4, g5⟩
            have hew : e ≠ w := by
              intro hew
              subst hew
              exact hnone s ⟨g1, g3, g4⟩
            exact (ihMem s e).mpr ⟨g1, by omega, g3, g4, g5⟩
    | some s₀ =>
      have hopen : openRun row c s₀ w := (ihSome s₀).mp rfl
      obtain ⟨ho1, ho2, ho3⟩ := hopen
      by_cases hc : row w = c
      · simp only [runStep, if_pos hc]
        constructor
        · intro s
          simp only [Option.some.injEq]
          constructor
          · rintro rfl
            refine ⟨by omega, ?_, ho3⟩
            intro x hx1 hx2
            rcases Nat.lt_or_ge x w with hlt | hge
            · exact ho2 x hx1 hlt
            · have hxw : x = w := by omega
              rw [hxw]
              exact hc
          · rintro ⟨h1, h2, h3⟩
            have hsw : s < w := by
              by_contra hge
              push_neg at hge
              have hseq : s = w := by omega
              subst hseq
              rcases h3 with h3 | h3
              · omega
              · exact h3 (ho2 (s - 1) (by omega) (by omega))
            have := (ihSome s).mpr ⟨hsw, fun x hx1 hx2 => h2 x hx1 (by omega), h3⟩
            exact (Option.some.injEq _ _).mp this |>.symm ▸ rfl
        · intro s e
          constructor
          · intro hmem
            obtain ⟨g1, g2, g3, g4, g5⟩ := (ihMem s e).mp hmem
            exact ⟨g1, by omega, g3, g4, g5⟩
          · rintro ⟨g1, g2, g3, g4, g5⟩
            have hew : e ≠ w := fun hew => g5 (hew ▸ hc)
            exact (ihMem s e).mpr ⟨g1, by omega, g3, g4, g5⟩
      · simp only [runStep, if_neg hc]
        constructor
        · intro s
          constructor
          · intro h
            exact Option.noConfusion h
          · rintro ⟨h1, h2, h3⟩
            exact absurd (h2 w (by omega) (by omega)) hc
        · intro s e
          simp only [List.mem_append, List.mem_singleton, Prod.mk.injEq]
          constructor
          · rintro (hmem | ⟨hs1, hs2⟩)
            · obtain ⟨g1, g2, g3, g4, g5⟩ := (ihMem s e).mp hmem
              exact ⟨g1, by omega, g3, g4, g5⟩
            · rw [hs1, hs2]
              exact ⟨ho1, by omega, ho2, ho3, hc⟩
          · rintro ⟨g1, g2, g3, g4, g5⟩
            by_cases hew : e = w
            · have hs : s < w := by omega
              have hins : inRun row c s w := fun x hx1 hx2 => g3 x hx1 (by omega)
              have hsome := (ihSome s).mpr ⟨hs, hins, g4⟩
              right
              exact ⟨(Option.some.inj hsome).symm, hew⟩
            · left
              exact (ihMem s e).mpr ⟨g1, by omega, g3, g4, g5⟩

/-- Complete characterization of the emitted runs of one row scan:
`[s, e)` is emitted exactly when it is a maximal run of `c`. -/
theorem rowRuns_mem (row : Nat → Nat) (c w s e : Nat) :
    (s, e) ∈ rowRuns row c w ↔
      s < e ∧ e ≤ w ∧ inRun row c s e ∧ leftMax row c s ∧
        (e = w ∨ row e ≠ c) := by
  obtain ⟨hSome, hMem⟩ := runFold_spec row c w
  unfold rowRuns
  rcases hfold : runFold row c w with ⟨st, rs⟩
  rw [hfold] at hSome hMem
  simp only at hSome hMem
  cases st with
  | none =>
    have hnone : ∀ s, ¬ openRun row c s w := by
      intro s hs
      exact Option.noConfusion ((hSome s).mpr hs)
    simp only
    constructor
    · intro hmem
      obtain ⟨g1, g2, g3, g4, g5⟩ := (hMem s e).mp hmem
      exact ⟨g1, by omega, g3, g4, Or.inr g5⟩
    · rintro ⟨g1, g2, g3, g4, g5⟩
      have hew : e ≠ w := by
        intro hew
        exact hnone s ⟨by omega, fun x hx1 hx2 => g3 x hx1 (by omega), g4⟩
      rcases g5 with g5 | g5
      · exact absurd g5 hew
      · exact (hMem s e).mpr ⟨g1, by omega, g3, g4, g5⟩
  | some s₀ =>
    obtain ⟨ho1, ho2, ho3⟩ := (hSome s₀).mp rfl
    simp only [List.mem_append, List.mem_singleton, Prod.mk.injEq]
    constructor
    · rintro (hmem | ⟨hs1, hs2⟩)
      · obtain ⟨g1, g2, g3, g4, g5⟩ := (hMem s e).mp hmem
        exact ⟨g1, by omega, g3, g4, Or.inr g5⟩
      · rw [hs1, hs2]
        exact ⟨ho1, le_rfl, ho2, ho3, Or.inl rfl⟩
    · rintro ⟨g1, g2, g3, g4, g5⟩
      by_cases hew : e = w
      · have hs : s < w := by omega
        have hins : inRun row c s w := fun x hx1 hx2 => g3 x hx1 (by omega)
        have hsome := (hSome s).mpr ⟨hs, hins, g4⟩
        right
        exact ⟨(Option.some.inj hsome).symm, hew⟩
      · rcases g5 with g5 | g5
        · exact absurd g5 hew
        · left
          exact (hMem s e).mpr ⟨g1, by omega, g3, g4, g5⟩

/-- If some scanned pixel has color `c`, a run (open or closed) exists. -/
theorem exists_run (row : Nat → Nat) (c : Nat) :
    ∀ w, (∃ x, x < w ∧ row x = c) →
      (∃ s, openRun row c s w) ∨ (∃ s e, closedRun row c w s e) := by
  intro w
  induction w with
  | zero =>
    rintro ⟨x, hx, -⟩
    omega
  | succ n ih =>
    rintro ⟨x, hx, hxc⟩
    by_cases hn : row n = c
    · left
      exact exists_openRun row c (n + 1) (by omega) (by simpa using hn)
    · have hx' : x < n := by
        rcases Nat.lt_or_ge x n with hlt | hge
        · exact hlt
        · exfalso
          have hxn : x = n := by omega
          exact hn (hxn ▸ hxc)
      rcases ih ⟨x, hx', hxc⟩ with ⟨s, hs1, hs2, hs3⟩ | ⟨s, e, hs1, hs2, hs3, hs4, hs5⟩
      · right
        exact ⟨s, n, hs1, by omega, hs2, hs3, hn⟩
      · right
        exact ⟨s, e, hs1, by omega, hs3, hs4, hs5⟩

/-- A row scan emits at least one run exactly when the row contains the
color at all. -/
theorem rowRuns_ne_nil_iff (row : Nat → Nat) (c w : Nat) :
    rowRuns row c w ≠ [] ↔ ∃ x, x < w ∧ row x = c := by
  obtain ⟨hSome, hMem⟩ := runFold_spec row c w
  unfold rowRuns
  rcases hfold : runFold row c w with ⟨st, rs⟩
  rw [hfold] at hSome hMem
  simp only at hSome hMem
  cases st with
  | none =>
    simp only
    constructor
    · intro hne
      obtain ⟨⟨s, e⟩, hmem⟩ := List.exists_mem_of_ne_nil _ hne
      obtain ⟨g1, g2, g3, g4, g5⟩ := (hMem s e).mp hmem
      exact ⟨s, by omega, g3 s le_rfl g1⟩
    · rintro ⟨x, hx, hxc⟩
      rcases exists_run row c w ⟨x, hx, hxc⟩ with ⟨s, hs⟩ | ⟨s, e, hs⟩
      · exact absurd ((hSome s).mpr hs) (by simp)
      · exact List.ne_nil_of_mem ((hMem s e).mpr hs)
  | some s₀ =>
    obtain ⟨ho1, ho2, ho3⟩ := (hSome s₀).mp rfl
    simp only
    constructor
    · intro _
      exact ⟨s₀, ho1, ho2 s₀ le_rfl ho1⟩
    · intro _
      simp

/-- A color's rectangle list is nonempty exactly when some sampled buffer
row contains the color. -/
theorem colorRects_ne_nil_iff (buf : Nat → Nat → Nat) (w h step c : Nat) :
    colorRects buf w h step c ≠ [] ↔
      ∃ svgY, svgY < h ∧ svgY % step = 0 ∧
        ∃ x, x < w ∧ buf x (h - 1 - svgY) = c := by
  unfold colorRects
  constructor
  · intro hne
    obtain ⟨r, hr⟩ := List.exists_mem_of_ne_nil _ hne
    obtain ⟨svgY, hy, hr2⟩ := List.mem_flatMap.mp hr
    obtain ⟨se, hse, -⟩ := List.mem_map.mp hr2
    have hy' := mem_sampledRows.mp hy
    obtain ⟨x, hx, hxc⟩ :=
      (rowRuns_ne_nil_iff (fun x => buf x (h - 1 - svgY)) c w).mp
        (List.ne_nil_of_mem hse)
    exact ⟨svgY, hy'.1, hy'.2, x, hx, hxc⟩
  · rintro ⟨svgY, h1, h2, hx⟩
    have hne := (rowRuns_ne_nil_iff (fun x => buf x (h - 1 - svgY)) c w).mpr hx
    obtain ⟨se, hse⟩ := List.exists_mem_of_ne_nil _ hne
    apply List.ne_nil_of_mem
    exact List.mem_flatMap.mpr
      ⟨svgY, mem_sampledRows.mpr ⟨h1, h2⟩,
        List.mem_map.mpr ⟨se, hse, rfl⟩⟩

/-- Membership in the insertion fold of the color scan. -/
theorem foldl_insert_mem (v : Nat) :
    ∀ (l acc : List Nat),
      v ∈ l.foldl
          (fun acc c => if c = 0 then acc else if c ∈ acc then acc else acc ++ [c]) acc ↔
        v ∈ acc ∨ (v ≠ 0 ∧ v ∈ l) := by
  intro l
  induction l with
  | nil => simp
  | cons a t ih =>
    intro acc
    simp only [List.foldl_cons]
    by_cases ha : a = 0
    · rw [if_pos ha, ih]
      subst ha
      constructor
      · rintro (h | ⟨h1, h2⟩)
        · exact Or.inl h
        · exact Or.inr ⟨h1, List.mem_cons_of_mem 0 h2⟩
      · rintro (h | ⟨h1, h2⟩)
        · exact Or.inl h
        · rcases List.mem_cons.mp h2 with h3 | h3
          · exact absurd h3 h1
          · exact Or.inr ⟨h1, h3⟩
    · rw [if_neg ha]
      by_cases hmem : a ∈ acc
      · rw [if_pos hmem, ih]
        constructor
        · rintro (h | ⟨h1, h2⟩)
          · exact Or.inl h
          · exact Or.inr ⟨h1, List.mem_cons_of_mem a h2⟩
        · rintro (h | ⟨h1, h2⟩)
          · exact Or.inl h
          · rcases List.mem_cons.mp h2 with h3 | h3
            · exact Or.inl (h3 ▸ hmem)
            · exact Or.inr ⟨h1, h3⟩
      · rw [if_neg hmem, ih]
        constructor
        · rintro (h | ⟨h1, h2⟩)
          · rcases List.mem_append.mp h with h3 | h3
            · exact Or.inl h3
            · have hva : v = a := List.mem_singleton.mp h3
              exact Or.inr ⟨hva ▸ ha, hva ▸ List.mem_cons_self a t⟩
          · exact Or.inr ⟨h1, List.mem_cons_of_mem a h2⟩
        · rintro (h | ⟨h1, h2⟩)
          · exact Or.inl (List.mem_append.mpr (Or.inl h))
          · rcases List.mem_cons.mp h2 with h3 | h3
            · exact Or.inl (List.mem_append.mpr (Or.inr (List.mem_singleton.mpr h3)))
            · exact Or.inr ⟨h1, h3⟩

/-- The unique-color list holds exactly the nonzero colors of the buffer
scan region. -/
theorem uniqueColors_mem (buf : Nat → Nat → Nat) (w h c : Nat) :
    c ∈ uniqueColors buf w h ↔
      c ≠ 0 ∧ ∃ y, y < h ∧ ∃ x, x < w ∧ buf x y = c := by
  unfold uniqueColors
  rw [foldl_insert_mem]
  simp only [List.not_mem_nil, false_or, List.mem_flatMap, List.mem_map,
    List.mem_range]

/-- The insertion fold never duplicates an entry. -/
theorem foldl_insert_nodup :
    ∀ (l acc : List Nat), acc.Nodup →
      (l.foldl
        (fun acc c => if c = 0 then acc else if c ∈ acc then acc else acc ++ [c]) acc).Nodup := by
  intro l
  induction l with
  | nil => exact fun acc h => h
  | cons a t ih =>
    intro acc hacc
    simp only [List.foldl_cons]
    by_cases ha : a = 0
    · rw [if_pos ha]
      exact ih acc hacc
    · rw [if_neg ha]
      by_cases hmem : a ∈ acc
      · rw [if_pos hmem]
        exact ih acc hacc
      · rw [if_neg hmem]
        refine ih _ ?_
        rw [List.nodup_append]
        exact ⟨hacc, List.nodup_singleton a, by simpa using hmem⟩

/-- The unique-color list is duplicate-free. -/
theorem uniqueColors_nodup (buf : Nat → Nat → Nat) (w h : Nat) :
    (uniqueColors buf w h).Nodup :=
  foldl_insert_nodup _ [] List.nodup_nil

/-- Counting by key in the mapped-and-filtered shape list of a
duplicate-free color list: one hit when the key is present with a nonempty
rectangle list, none otherwise. -/
theorem countP_keyed (c : Nat) (f : Nat → List Rect) :
    ∀ l : List Nat, l.Nodup →
      ((l.map fun d => (d, f d)).filter fun p => !p.2.isEmpty).countP
          (fun p => p.1 == c) =
        if c ∈ l ∧ f c ≠ [] then 1 else 0 := by
  intro l
  induction l with
  | nil => simp
  | cons a t ih =>
    intro hnd
    obtain ⟨hat, hnt⟩ := List.nodup_cons.mp hnd
    simp only [List.map_cons, List.filter_cons]
    by_cases hfa : (f a).isEmpty
    · rw [if_neg (by simp [hfa]), ih hnt]
      by_cases hca : c = a
      · subst hca
        rw [if_neg (fun hcond => hat hcond.1),
          if_neg (fun hcond => hcond.2 (List.isEmpty_iff.mp hfa))]
      · simp only [List.mem_cons, hca, false_or]
    · rw [if_pos (by simp [hfa]), List.countP_cons, ih hnt]
      by_cases hca : c = a
      · subst hca
        have hfc : f c ≠ [] := by
          intro hnil
          rw [hnil] at hfa
          exact hfa rfl
        simp [hat, hfc]
      · have hbeq : (((a, f a)).1 == c) = false := by
          simp only [beq_eq_false_iff_ne, ne_eq]
          exact fun hac => hca hac.symm
        rw [hbeq]
        simp [List.mem_cons, hca]

/-- Key-count of the shape list: the color must be in the unique list and
must have produced at least one rectangle. -/
theorem shapesOfBuf_countP (buf : Nat → Nat → Nat) (w h step c : Nat) :
    (shapesOfBuf buf w h step).countP (fun p => p.1 == c) =
      if c ∈ uniqueColors buf w h ∧ colorRects buf w h step c ≠ [] then 1 else 0 := by
  unfold shapesOfBuf
  exact countP_keyed c _ _ (uniqueColors_nodup buf w h)

/-- Storing a value `n / 255` of the quantizer output grid as a byte gives
`n` capped at 255. -/
theorem byteOfChan_natCast_div (n : Nat) :
    byteOfChan ((n : ℚ) / 255) = min n 255 := by
  unfold byteOfChan
  have hnn : (0 : ℚ) ≤ (n : ℚ) / 255 := by positivity
  rw [max_eq_left hnn]
  by_cases hle : n ≤ 255
  · have hv1 : (n : ℚ) / 255 ≤ 1 := by
      rw [div_le_one (by norm_num)]
      exact_mod_cast hle
    rw [min_eq_left hv1, div_mul_cancel₀ _ (by norm_num : (255 : ℚ) ≠ 0),
      floor_nat_add_half, Int.toNat_natCast]
    exact (min_eq_left hle).symm
  · have hv1 : (1 : ℚ) ≤ (n : ℚ) / 255 := by
      rw [le_div_iff₀ (by norm_num : (0 : ℚ) < 255), one_mul]
      exact_mod_cast (by omega : (255 : ℕ) ≤ n)
    have h255 : ((255 : ℕ) : ℚ) = 255 := by norm_num
    rw [min_eq_right hv1, one_mul, ← h255, floor_nat_add_half, Int.toNat_natCast]
    exact (min_eq_right (by omega)).symm

/-- C1: the pipeline vertically mirrors the image.  On the 4×4 test image
whose top row is blue, the quantized color of the image's TOP row is
`0x4C00B0 = 4980912` (the blur blends blue with the red rows below), and
the single rectangle emitted for that color sits at `svgY = 3 = height-1`,
the BOTTOM of the vector canvas — not at `svgY = 0` as the claim (and the
source's own "Orientation Fixed: No mirroring" header) requires.  The
`height-1-svgY` remap (line 200) re-flips a buffer that the platform
semantics already deliver in top-down image order. -/
theorem claim1_top_row_rendered_at_bottom :
    quantizedColors testImg 0 0 0 = 4980912 ∧
    (4980912, [(⟨0, 3, 4, 1⟩ : Rect)]) ∈ shapesOf testImg 0 ∧
    (∀ p ∈ shapesOf testImg 0, p.1 = 4980912 → p.2 = [(⟨0, 3, 4, 1⟩ : Rect)]) := by
  refine ⟨by decide, by decide, by decide⟩

/-- C2 counterexample: the concrete 4×4 scenario yields four shapes, not
two (the Gaussian blur blends the blue and red rows into four distinct
quantized colors before the scan). -/
theorem claim2_not_two_shapes :
    (shapesOf testImg 0).length = 4 ∧ (shapesOf testImg 0).length ≠ 2 := by
  refine ⟨by decide, by decide⟩

/-- C2 amended: the actual output of the 4×4 blue-top/red scenario at
simplification 0 is four single-rectangle shapes, one per image row, and
the shape derived from the blue TOP row (color `(76,0,176)`) is the lowest
of the four (`svgY = 3`). -/
theorem claim2_actual_output :
    qFactorOf 0 = 4 ∧ rowStepOf 0 = 1 ∧
    shapesOf testImg 0 =
      [(4980912, [⟨0, 3, 4, 1⟩]), (11534412, [⟨0, 2, 4, 1⟩]),
       (15466508, [⟨0, 1, 4, 1⟩]), (16515072, [⟨0, 0, 4, 1⟩])] ∧
    traceImageOffline testImg 0 =
      "<svg viewBox=\"0 0 4 4\" xmlns=\"http://www.w3.org/2000/svg\" shape-rendering=\"crispEdges\"><path d=\"M0,3h4v1h-4z \" fill=\"rgb(76,0,176)\" /><path d=\"M0,2h4v1h-4z \" fill=\"rgb(176,0,76)\" /><path d=\"M0,1h4v1h-4z \" fill=\"rgb(236,0,12)\" /><path d=\"M0,0h4v1h-4z \" fill=\"rgb(252,0,0)\" /></svg>" := by
  refine ⟨rfl, rfl, by decide, by decide⟩

/-- C3 counterexample: at simplification 99 (`qFactor = 33`) the
Gaussian-averaged channel value of a pure-white region is `987/1000`
(attained: `blurM = 251685 = 987·255`), and the claim's per-channel result
`round(c·255/qFactor)·qFactor = 264` is NOT an integer in 0–255; the byte
actually stored is the clamped `255 ≠ 264`. -/
theorem claim3_quantized_value_exceeds_255 :
    qFactorOf 99 = 33 ∧
    blurM (constImg 1 1 ⟨255, 255, 255⟩) RGB.r 0 0 = 251685 ∧
    blurChan (constImg 1 1 ⟨255, 255, 255⟩) RGB.r 0 0 = 987 / 1000 ∧
    quantizeQ 33 (987 / 1000) * 255 = 264 ∧
    ¬ ((264 : ℚ) ≤ 255) ∧
    shaderByte (constImg 1 1 ⟨255, 255, 255⟩) 33 RGB.r 0 0 = 255 := by
  refine ⟨rfl, by decide, ?_, ?_, by norm_num, by decide⟩
  · rw [blurChan_eq_blurM,
      show blurM (constImg 1 1 ⟨255, 255, 255⟩) RGB.r 0 0 = 251685 from by decide]
    norm_num
  · unfold quantizeQ
    have hfl : ⌊(987 / 1000 : ℚ) * 255 / ((33 : ℕ) : ℚ) + 0.5⌋ = 8 := by
      rw [Int.floor_eq_iff]
      constructor
      · push_cast
        norm_num
      · push_cast
        norm_num
    rw [hfl]
    norm_num

/-- C3 amended: for every simplification and every nonnegative channel
value, quantization follows `q(c) = round(c·255/qFactor)·qFactor`
(round-to-nearest via `floor(x + 0.5)`) with
`qFactor = max(4, floor(simplification/3))`; the raw result is NOT always
in 0–255 — the byte actually stored is `min(q(c), 255)` after the
framebuffer's `[0,1]` clamp, and only that stored byte is bounded by 255. -/
theorem claim3_quantize_formula_and_clamp (s : Nat) (c : ℚ) (hc : 0 ≤ c) :
    qFactorOf s = max 4 (s / 3) ∧
    quantizeQ (qFactorOf s) c * 255 =
      (⌊c * 255 / (qFactorOf s : ℚ) + 0.5⌋ : ℚ) * (qFactorOf s : ℚ) ∧
    (byteOfChan (quantizeQ (qFactorOf s) c) : ℚ) =
      min (quantizeQ (qFactorOf s) c * 255) 255 ∧
    byteOfChan (quantizeQ (qFactorOf s) c) ≤ 255 := by
  have hq4 : 4 ≤ qFactorOf s := by
    unfold qFactorOf
    omega
  have hqpos : (0 : ℚ) < (qFactorOf s : ℚ) := by
    exact_mod_cast (by omega : 0 < qFactorOf s)
  have hm : 0 ≤ ⌊c * 255 / (qFactorOf s : ℚ) + 0.5⌋ := by
    apply Int.floor_nonneg.mpr
    have h1 : (0 : ℚ) ≤ c * 255 / (qFactorOf s : ℚ) :=
      div_nonneg (mul_nonneg hc (by norm_num)) (le_of_lt hqpos)
    have h2 : (0 : ℚ) ≤ (0.5 : ℚ) := by norm_num
    linarith
  obtain ⟨n, hn⟩ := Int.eq_ofNat_of_zero_le hm
  have hquant : quantizeQ (qFactorOf s) c = ((n * qFactorOf s : ℕ) : ℚ) / 255 := by
    unfold quantizeQ
    rw [hn]
    push_cast
    ring
  have hq255 : quantizeQ (qFactorOf s) c * 255 = ((n * qFactorOf s : ℕ) : ℚ) := by
    rw [hquant, div_mul_cancel₀ _ (by norm_num : (255 : ℚ) ≠ 0)]
  refine ⟨rfl, ?_, ?_, ?_⟩
  · unfold quantizeQ
    rw [div_mul_cancel₀ _ (by norm_num : (255 : ℚ) ≠ 0)]
  · rw [hquant, byteOfChan_natCast_div,
      div_mul_cancel₀ _ (by norm_num : (255 : ℚ) ≠ 0)]
    push_cast [Nat.cast_min]
    rfl
  · rw [hquant, byteOfChan_natCast_div]
    omega

/-- C3 witness at the overflow point `s = 99`, `c = 987/1000`. -/
theorem claim3_witness :
    (byteOfChan (quantizeQ (qFactorOf 99) (987 / 1000)) : ℚ) =
      min (quantizeQ (qFactorOf 99) (987 / 1000) * 255) 255 ∧
    byteOfChan (quantizeQ (qFactorOf 99) (987 / 1000)) ≤ 255 :=
  ⟨(claim3_quantize_formula_and_clamp 99 (987 / 1000) (by norm_num)).2.2.1,
   (claim3_quantize_formula_and_clamp 99 (987 / 1000) (by norm_num)).2.2.2⟩

/-- C4: complete characterization of the per-color scanline output.  A
rectangle is emitted for color `c` exactly when there is a sampled output
row `svgY` (a multiple of `rowStep = max(1, ⌊s/20⌋)` below `height`) and a
maximal run `[sx, e)` of `c` in buffer row `height - 1 - svgY` — scanned
left to right, opened at the first matching column, closed at the first
mismatch or at `width` — and the rectangle is `(sx, svgY)` of size
`(e - sx, rowStep)`. -/
theorem claim4_scanline_characterization (buf : Nat → Nat → Nat)
    (w h s c : Nat) (r : Rect) :
    r ∈ colorRects buf w h (rowStepOf s) c ↔
      ∃ svgY, svgY < h ∧ svgY % rowStepOf s = 0 ∧
        ∃ sx e, sx < e ∧ e ≤ w ∧
          (∀ x, sx ≤ x → x < e → buf x (h - 1 - svgY) = c) ∧
          (sx = 0 ∨ buf (sx - 1) (h - 1 - svgY) ≠ c) ∧
          (e = w ∨ buf e (h - 1 - svgY) ≠ c) ∧
          r = ⟨sx, svgY, e - sx, rowStepOf s⟩ := by
  unfold colorRects
  rw [List.mem_flatMap]
  constructor
  · rintro ⟨svgY, hy, hmem⟩
    obtain ⟨⟨sx, e⟩, hse, hr⟩ := List.mem_map.mp hmem
    obtain ⟨g1, g2, g3, g4, g5⟩ := (rowRuns_mem _ c w sx e).mp hse
    have hy' := mem_sampledRows.mp hy
    exact ⟨svgY, hy'.1, hy'.2, sx, e, g1, g2, g3, g4, g5, hr.symm⟩
  · rintro ⟨svgY, h1, h2, sx, e, g1, g2, g3, g4, g5, hr⟩
    exact ⟨svgY, mem_sampledRows.mpr ⟨h1, h2⟩,
      List.mem_map.mpr
        ⟨(sx, e), (rowRuns_mem _ c w sx e).mpr ⟨g1, g2, g3, g4, g5⟩, hr.symm⟩⟩

/-- C5 counterexample: with `rowStep = 2` (simplification 40) on a 1×3
buffer whose only nonzero color 26 sits in buffer row 1, the sampled rows
read buffer rows 2 and 0 only, so the present color yields NO shape — not
exactly one as claimed. -/
theorem claim5_skipped_row_color_dropped :
    skipBuf 0 1 = 26 ∧ (26 : Nat) ≠ 0 ∧ rowStepOf 40 = 2 ∧
    shapesOfBuf skipBuf 1 3 (rowStepOf 40) = [] ∧
    (shapesOfBuf skipBuf 1 3 (rowStepOf 40)).countP (fun p => p.1 == 26) ≠ 1 := by
  refine ⟨rfl, by decide, rfl, by decide, by decide⟩

/-- C5 amended: a non-background color yields exactly one shape element iff
it matches at least one pixel lying on a SAMPLED buffer row
(`height - 1 - svgY` for some visited `svgY`); colors whose pixels all lie
on skipped rows yield none. -/
theorem claim5_color_one_shape_iff (buf : Nat → Nat → Nat) (w h s c : Nat)
    (hc : c ≠ 0) :
    (shapesOfBuf buf w h (rowStepOf s)).countP (fun p => p.1 == c) = 1 ↔
      ∃ svgY, svgY < h ∧ svgY % rowStepOf s = 0 ∧
        ∃ x, x < w ∧ buf x (h - 1 - svgY) = c := by
  rw [shapesOfBuf_countP]
  constructor
  · intro h1
    by_cases hcond : c ∈ uniqueColors buf w h ∧
        colorRects buf w h (rowStepOf s) c ≠ []
    · exact (colorRects_ne_nil_iff buf w h (rowStepOf s) c).mp hcond.2
    · rw [if_neg hcond] at h1
      omega
  · intro hex
    have hne := (colorRects_ne_nil_iff buf w h (rowStepOf s) c).mpr hex
    obtain ⟨svgY, h1, h2, x, hx, hbuf⟩ := hex
    have hmem : c ∈ uniqueColors buf w h :=
      (uniqueColors_mem buf w h c).mpr ⟨hc, h - 1 - svgY, by omega, x, hx, hbuf⟩
    rw [if_pos ⟨hmem, hne⟩]

/-- C5 witness: a 1×1 buffer of color 5 at simplification 0 yields exactly
one shape. -/
theorem claim5_witness :
    (shapesOfBuf (fun _ _ => 5) 1 1 (rowStepOf 0)).countP (fun p => p.1 == 5) = 1 :=
  (claim5_color_one_shape_iff (fun _ _ => 5) 1 1 0 5 (by decide)).mpr
    ⟨0, by decide, by decide, 0, by decide, rfl⟩

/-- C6 counterexample: the 25 kernel weights sum to `0.987`, not 1; a
constant pure-white region is consequently darkened (channel byte 252
instead of 255 at `qFactor = 4`). -/
theorem claim6_kernel_sum_ne_one :
    gaussW.length = 25 ∧ gaussW.sum = 987 / 1000 ∧ (987 / 1000 : ℚ) ≠ 1 ∧
    shaderByte (constImg 1 1 ⟨255, 255, 255⟩) 4 RGB.r 0 0 = 252 ∧
    (252 : Nat) ≠ 255 := by
  have hsum : gaussW.sum = 987 / 1000 := by
    have h1 : gaussW.sum = ((gaussM.map id).sum : ℚ) / 1000 := by
      rw [gaussW_eq_map_gaussM]
      exact sum_map_cast_div gaussM _ id 1000 (fun k _ => rfl)
    rw [h1, List.map_id, show gaussM.sum = 987 from by decide]
    norm_num
  exact ⟨rfl, hsum, by norm_num, by decide, by decide⟩

/-- C6 amended: the 25 kernel weights sum to `987/1000`, so the blur of a
constant-color region scales each channel by `0.987` instead of leaving it
unchanged. -/
theorem claim6_kernel_sum_and_const_blur :
    gaussW.length = 25 ∧ gaussW.sum = 987 / 1000 ∧
    ∀ (w h : Nat) (col : RGB) (ch : RGB → Nat) (x y : Nat),
      blurChan (constImg w h col) ch x y = 987 / 1000 * ((ch col : ℚ) / 255) := by
  have hsum : gaussW.sum = 987 / 1000 := by
    have h1 : gaussW.sum = ((gaussM.map id).sum : ℚ) / 1000 := by
      rw [gaussW_eq_map_gaussM]
      exact sum_map_cast_div gaussM _ id 1000 (fun k _ => rfl)
    rw [h1, List.map_id, show gaussM.sum = 987 from by decide]
    norm_num
  refine ⟨rfl, hsum, ?_⟩
  intro w h col ch x y
  rw [blurChan_eq_blurM, blurM_const]
  push_cast
  ring

/-- C7: an all-black input image quantizes to an all-background buffer, so
the pipeline returns the well-formed document with zero shape elements
(the empty-paths wrapper), and no color survives the background filter. -/
theorem claim7_black_image_zero_shapes (w h s : Nat) :
    shapesOf (constImg w h ⟨0, 0, 0⟩) s = [] ∧
    traceImageOffline (constImg w h ⟨0, 0, 0⟩) s = svgDoc w h "" := by
  have hw : (constImg w h ⟨0, 0, 0⟩).width = w := rfl
  have hh : (constImg w h ⟨0, 0, 0⟩).height = h := rfl
  have huc : uniqueColors (quantizedColors (constImg w h ⟨0, 0, 0⟩) s) w h = [] :=
    uniqueColors_of_zero _ w h (fun x y => quantizedColors_black w h s x y)
  have hbuf : shapesOfBuf (quantizedColors (constImg w h ⟨0, 0, 0⟩) s) w h
      (rowStepOf s) = [] := by
    unfold shapesOfBuf
    rw [huc]
    rfl
  constructor
  · unfold shapesOf
    rw [hw, hh]
    exact hbuf
  · unfold traceImageOffline vectorize
    rw [hw, hh, hbuf]
    rfl

/-- C8: per-channel quantization is idempotent — requantizing a quantized
byte value with the same `qFactor` leaves it unchanged, so a second pass
over an already-quantized buffer is the identity. -/
theorem claim8_quantize_idempotent (q c : Nat) (hq : 4 ≤ q) (hc : c ≤ 255) :
    quantizeChan q (quantizeChan q c) = quantizeChan q c := by
  unfold quantizeChan
  have hq0 : 0 < q := by omega
  have hkey : (2 * ((2 * c + q) / (2 * q) * q) + q) / (2 * q) = (2 * c + q) / (2 * q) := by
    set m := (2 * c + q) / (2 * q) with hm
    have h1 : 2 * (m * q) + q = q * (2 * m + 1) := by ring
    have h2 : 2 * q = q * 2 := by ring
    rw [h1, h2, Nat.mul_div_mul_left _ _ hq0]
    omega
  rw [hkey]

/-- C8 witness at `q = 4`, `c = 100`. -/
theorem claim8_witness :
    quantizeChan 4 (quantizeChan 4 100) = quantizeChan 4 100 :=
  claim8_quantize_idempotent 4 100 (by decide) (by decide)

/-- C9: the pipeline is a pure function of the pixel contents and the
simplification value — two runs on images with identical samples produce
byte-identical output strings (shape order is the first-encounter scan
order, which depends only on the input). -/
theorem claim9_deterministic (w h s : Nat) (f g : Nat → Nat → RGB)
    (hfg : ∀ x y, f x y = g x y) :
    traceImageOffline ⟨w, h, f⟩ s = traceImageOffline ⟨w, h, g⟩ s := by
  have hfg' : f = g := funext fun x => funext fun y => hfg x y
  rw [hfg']

/-- C9 witness: two syntactically different but extensionally equal pixel
functions give the same output string. -/
theorem claim9_witness :
    traceImageOffline ⟨1, 1, fun _ _ => ⟨1, 2, 3⟩⟩ 0 =
      traceImageOffline ⟨1, 1, fun _ _ => ⟨0 + 1, 2, 3⟩⟩ 0 :=
  claim9_deterministic 1 1 0 _ _ (fun _ _ => by norm_num)

/-- C10: every access of the vectorizer stays in bounds — each visited
`svgY` is below `height`, the remapped buffer row `height - 1 - svgY` is a
valid row, the repack index `height*width`-bounded, and the byte reads of
the repacking loop stay below `width*height*4`. -/
theorem claim10_accesses_in_bounds (w h s : Nat) (hw : 1 ≤ w) (hh : 1 ≤ h) :
    (∀ svgY ∈ sampledRows h (rowStepOf s),
        svgY < h ∧ h - 1 - svgY < h ∧
        ∀ x, x < w → (h - 1 - svgY) * w + x < w * h) ∧
    (∀ y x k, y < h → x < w → k < 4 → (y * w + x) * 4 + k < w * h * 4) := by
  constructor
  · intro svgY hmem
    have h1 : svgY < h := (mem_sampledRows.mp hmem).1
    refine ⟨h1, by omega, ?_⟩
    intro x hx
    have h2 : h - 1 - svgY ≤ h - 1 := Nat.sub_le _ _
    have h3 : (h - 1 - svgY) * w ≤ (h - 1) * w := Nat.mul_le_mul_right w h2
    have h4 : (h - 1) * w = h * w - w := by
      rw [Nat.sub_one_mul]
    have h5 : w ≤ h * w := Nat.le_mul_of_pos_left w hh
    have h6 : w * h = h * w := Nat.mul_comm w h
    omega
  · intro y x k hy hx hk
    have h2 : y ≤ h - 1 := by omega
    have h3 : y * w ≤ (h - 1) * w := Nat.mul_le_mul_right w h2
    have h4 : (h - 1) * w = h * w - w := by
      rw [Nat.sub_one_mul]
    have h5 : w ≤ h * w := Nat.le_mul_of_pos_left w hh
    have h6 : w * h = h * w := Nat.mul_comm w h
    omega

/-- C10 witness on a 2×2 image at simplification 0. -/
theorem claim10_witness :
    ((2 : Nat) - 1 - 0) * 2 + 1 < 2 * 2 ∧ (1 * 2 + 1) * 4 + 3 < 2 * 2 * 4 :=
  ⟨((claim10_accesses_in_bounds 2 2 0 (by decide) (by decide)).1 0
      (by decide)).2.2 1 (by decide),
   (claim10_accesses_in_bounds 2 2 0 (by decide) (by decide)).2 1 1 3
      (by decide) (by decide) (by decide)⟩
